import Mathlib

/-!
Verification of the core transform pipeline of `zfs-diff-explorer`
(`src/index.mjs`): line parsing (`zfsLines`), hierarchy building
(`getTreeFromZfs` / `addSegments` / `getChild`), the `count` annotation,
and tree pruning (`pruneTree`).

Strings are embedded as `List Char`; a JS string `s` corresponds to
`s.data`.  JS objects used as string-keyed maps (`Hierarchy.children`)
are embedded as association lists in insertion order, which is the
enumeration order of `Object.entries` / `Object.keys` for such objects.
-/

set_option maxHeartbeats 1000000

namespace ZfsDiff

/-- A parsed change record: the single-character change kind and, for rename
records, the destination path (mirrors the `Change` typedef). -/
structure Change where
  type : Char
  movedTo : Option (List Char) := none
deriving DecidableEq, Repr

/-- The two fatal error kinds of the pipeline: a rename line without the
`" -> "` separator (`"Couldn't find new value for rename"`) and a parsed
path that does not start with `/` (`"Didn't start with /: <path>"`). -/
inductive FormatError where
  | renameMissingDestination
  | pathNotAbsolute (path : List Char)
deriving DecidableEq, Repr

/-- The tree node type (mirrors the `Hierarchy` typedef): a string-keyed
children mapping, in insertion order, and an optional list of changes. -/
inductive Hierarchy : Type where
  | mk (children : List (List Char × Hierarchy)) (changes : Option (List Change))
deriving Repr

def Hierarchy.children : Hierarchy → List (List Char × Hierarchy)
  | .mk cs _ => cs

def Hierarchy.changes : Hierarchy → Option (List Change)
  | .mk _ chg => chg

/-- The filter configuration (mirrors the `ParseOptions` typedef of the
pruning version). -/
structure ParseOptions where
  includeRenamed : Bool
  includeModified : Bool
  includeAdditions : Bool
  includeDeletions : Bool
  includeAddDel : Bool
deriving DecidableEq, Repr

/-- `String.prototype.split` with a single-character separator: splits at
every occurrence, keeping empty pieces (`"".split(c) == [""]`). -/
def splitOnCharAux (c : Char) : List Char → List Char → List (List Char)
  | [], acc => [acc.reverse]
  | x :: xs, acc =>
    if x = c then acc.reverse :: splitOnCharAux c xs []
    else splitOnCharAux c xs (x :: acc)

def splitOnChar (c : Char) (s : List Char) : List (List Char) :=
  splitOnCharAux c s []

/-- The line grammar `/^(.)\t(.+)$/`: any first character, a tab, and a
non-empty remainder (within one line there are no newlines, so `.` matches
every character). -/
def matchLine : List Char → Option (Char × List Char)
  | k :: '\t' :: rest => if rest = [] then none else some (k, rest)
  | _ => none

/-- When the list starts with the four characters `" -> "` followed by at
least one character, the part after them; `none` otherwise. -/
def arrowSuffix : List Char → Option (List Char)
  | ' ' :: '-' :: '>' :: ' ' :: rest => if rest = [] then none else some rest
  | _ => none

/-- Splits at the rightmost occurrence of `" -> "` that is followed by at
least one character; `none` when there is no such occurrence. -/
def splitLastArrow : List Char → Option (List Char × List Char)
  | [] => none
  | x :: xs =>
    ((splitLastArrow xs).map (fun p => (x :: p.1, p.2))).or
      ((arrowSuffix (x :: xs)).map (fun rest => ([], rest)))

/-- The rename payload grammar `/(.+) -> (.+)$/`: with the leftmost match
and a greedy first group, the payload splits at the rightmost `" -> "`
having a non-empty suffix, provided the prefix before it is non-empty. -/
def matchRename (path : List Char) : Option (List Char × List Char) :=
  match splitLastArrow path with
  | some (b, a) => if b = [] then none else some (b, a)
  | none => none

/-- One iteration of the `zfsLines` generator body: `ok none` when the line
is skipped (blank or not matching the grammar), `ok (some (change, path))`
when a record is yielded, `error` for a rename line without `" -> "`. -/
def parseLine (line : List Char) : Except FormatError (Option (Change × List Char)) :=
  match matchLine line with
  | none => .ok none
  | some (k, rest) =>
    if k = 'R' then
      match matchRename rest with
      | none => .error .renameMissingDestination
      | some (src, dst) => .ok (some ({ type := k, movedTo := some dst }, src))
    else .ok (some ({ type := k, movedTo := none }, rest))

/-- The records yielded by `zfsLines` on a list of lines, collected. -/
def zfsLinesList : List (List Char) → Except FormatError (List (Change × List Char))
  | [] => .ok []
  | line :: rest =>
    match parseLine line with
    | .error e => .error e
    | .ok none => zfsLinesList rest
    | .ok (some p) =>
      match zfsLinesList rest with
      | .error e => .error e
      | .ok rs => .ok (p :: rs)

/-- `zfsLines(data)`: split on newlines and parse each line in order. -/
def zfsLines (data : List Char) : Except FormatError (List (Change × List Char)) :=
  zfsLinesList (splitOnChar '\n' data)

/-- The lookup half of `getChild`: own-property lookup of a key in the
children mapping (`Object.hasOwn` treats every string, including
`"constructor"`, as a plain key; so does an association list). -/
def getExisting (cs : List (List Char × Hierarchy)) (k : List Char) : Option Hierarchy :=
  List.lookup k cs

/-- The write-back of `getChild`'s `hierarchy.children[value] = created`
together with later in-place mutation of the child: replace the value at
an existing key, or append a new key in last position (JS insertion
order for string keys). -/
def setChild : List (List Char × Hierarchy) → List Char → Hierarchy → List (List Char × Hierarchy)
  | [], k, v => [(k, v)]
  | (k', v') :: tail, k, v =>
    if k' = k then (k', v) :: tail
    else (k', v') :: setChild tail k v

/-- `addSegments`: attach `ch` at the node addressed by `segments`,
creating intermediate nodes with `getChild`; a final lone empty segment
(from a trailing `/`) attaches at the current node instead of creating a
child. -/
def addSegments : List (List Char) → Change → Hierarchy → Hierarchy
  | [], ch, .mk cs chg => .mk cs (some (chg.getD [] ++ [ch]))
  | first :: rest, ch, .mk cs chg =>
    if rest = [] ∧ first = [] then .mk cs (some (chg.getD [] ++ [ch]))
    else
      .mk (setChild cs first (addSegments rest ch ((getExisting cs first).getD (.mk [] none)))) chg

/-- The loop body of `getTreeFromZfs`: consume the generator lazily; for
each yielded record check the leading `/` and insert its split path. -/
def processLines : List (List Char) → Hierarchy → Except FormatError Hierarchy
  | [], h => .ok h
  | line :: rest, h =>
    match parseLine line with
    | .error e => .error e
    | .ok none => processLines rest h
    | .ok (some (ch, path)) =>
      if path.head? = some '/' then
        processLines rest (addSegments (splitOnChar '/' path) ch h)
      else .error (.pathNotAbsolute path)

/-- `getTreeFromZfs(fileData)`: build the tree from raw text, starting from
an empty root. -/
def getTreeFromZfs (data : List Char) : Except FormatError Hierarchy :=
  processLines (splitOnChar '\n' data) (.mk [] none)

mutual
/-- `count(hierarchy)`: the number of descendant nodes carrying at least
one change record. -/
def count : Hierarchy → Nat
  | .mk cs _ => countChildren cs

def countChildren : List (List Char × Hierarchy) → Nat
  | [] => 0
  | (_, v) :: tail =>
    (if (v.changes.getD []).length > 0 then 1 else 0) + count v + countChildren tail
end

mutual
/-- The total number of change records stored in a tree. -/
def totalChanges : Hierarchy → Nat
  | .mk cs chg => (chg.getD []).length + totalChangesList cs

def totalChangesList : List (List Char × Hierarchy) → Nat
  | [] => 0
  | (_, v) :: tail => totalChanges v + totalChangesList tail
end

/-- The add+del collision flag of `pruneTree`: the (pre-filter) changes
contain at least one deletion and at least one addition. -/
def isAddDel (changes : Option (List Change)) : Bool :=
  (changes.getD []).any (fun c => c.type == '-') &&
  (changes.getD []).any (fun c => c.type == '+')

/-- The per-record filter predicate of `pruneTree`, with the node's
`isAddDel` flag already computed. -/
def keepChange (isAD : Bool) (opts : ParseOptions) (c : Change) : Bool :=
  if c.type == 'R' && !opts.includeRenamed then false
  else if c.type == 'M' && !opts.includeModified then false
  else if isAD then opts.includeAddDel
  else if c.type == '+' && !opts.includeAdditions then false
  else if c.type == '-' && !opts.includeDeletions then false
  else true

/-- The `changes` filtering step of `pruneTree` on one node. -/
def filterChanges (chg : Option (List Change)) (opts : ParseOptions) : Option (List Change) :=
  chg.map (fun l => l.filter (keepChange (isAddDel chg) opts))

mutual
/-- `pruneTree(tree, options)`: rebuild the node with filtered changes and
recursively pruned children; `none` (JS `undefined`) when the filtered
changes are empty or absent and no child survives. -/
def pruneTree : Hierarchy → ParseOptions → Option Hierarchy
  | .mk cs chg, opts =>
    if ((filterChanges chg opts).getD []).isEmpty && (pruneChildren cs opts).isEmpty then none
    else some (.mk (pruneChildren cs opts) (filterChanges chg opts))

/-- The `flatMap` over `Object.entries(tree.children)`: children whose
pruning yields `undefined` are dropped, the others keep their key and
relative order. -/
def pruneChildren : List (List Char × Hierarchy) → ParseOptions → List (List Char × Hierarchy)
  | [], _ => []
  | (k, v) :: tail, opts =>
    match pruneTree v opts with
    | some r => (k, r) :: pruneChildren tail opts
    | none => pruneChildren tail opts
end

/-- Own-property lookup in a children mapping. -/
def lookupChild (h : Hierarchy) (k : List Char) : Option Hierarchy :=
  List.lookup k h.children

/-- The keys of a node's children mapping, in insertion order. -/
def childKeys (h : Hierarchy) : List (List Char) :=
  h.children.map (fun p => p.1)

/-- A line the parser understands as a rename but cannot split: the only
line shape on which `zfsLines` itself throws. -/
def isBadRenameLine (line : List Char) : Bool :=
  match matchLine line with
  | some (k, rest) => k == 'R' && (matchRename rest).isNone
  | none => false

/-- A line that yields a record whose path does not start with `/`: the
only line shape on which the builder loop throws. -/
def yieldsRelativePath (line : List Char) : Bool :=
  match parseLine line with
  | .ok (some (_, path)) => !(path.head? == some '/')
  | _ => false

/-- Whether the list starts with the four characters `" -> "`. -/
def startsWithArrow : List Char → Bool
  | ' ' :: '-' :: '>' :: ' ' :: _ => true
  | _ => false

/-- Whether `" -> "` occurs anywhere in the list. -/
def hasArrow : List Char → Bool
  | [] => false
  | x :: xs => startsWithArrow (x :: xs) || hasArrow xs

/-- A well-formed line: blank, or matching the line grammar with a
splittable rename payload and an absolute (yielded) path. -/
def goodLine (line : List Char) : Bool :=
  line.isEmpty ||
  (match matchLine line with
   | none => false
   | some (k, rest) =>
     if k = 'R' then
       match matchRename rest with
       | none => false
       | some (src, _) => src.head? == some '/'
     else rest.head? == some '/')

/-- Pointwise order on filter configurations: every flag set in `a` is
also set in `b` (`b` is at least as permissive). -/
def optsLE (a b : ParseOptions) : Prop :=
  (a.includeRenamed = true → b.includeRenamed = true) ∧
  (a.includeModified = true → b.includeModified = true) ∧
  (a.includeAdditions = true → b.includeAdditions = true) ∧
  (a.includeDeletions = true → b.includeDeletions = true) ∧
  (a.includeAddDel = true → b.includeAddDel = true)

/-- `SubTree t1 t2`: every change record of `t1` appears (in order) among
the records of `t2` at the same node, and every child of `t1` appears,
under the same key, as a child of `t2`, recursively. -/
def SubTree : Hierarchy → Hierarchy → Prop
  | .mk cs1 chg1, .mk cs2 chg2 =>
    List.Sublist (chg1.getD []) (chg2.getD []) ∧
    ∀ k v1, (k, v1) ∈ cs1 → ∃ v2, (k, v2) ∈ cs2 ∧ SubTree v1 v2
termination_by t1 _ => sizeOf t1
decreasing_by
  have h1 : sizeOf (k, v1) < sizeOf cs1 := List.sizeOf_lt_of_mem (by assumption)
  simp only [Prod.mk.sizeOf_spec] at h1
  simp only [Hierarchy.mk.sizeOf_spec]
  omega

/-- Every node of the tree, at every depth, carries at least one change
record or has at least one child. -/
inductive AllNonEmpty : Hierarchy → Prop where
  | mk {cs : List (List Char × Hierarchy)} {chg : Option (List Change)} :
      (chg.getD [] ≠ [] ∨ cs ≠ []) →
      (∀ k v, (k, v) ∈ cs → AllNonEmpty v) →
      AllNonEmpty (.mk cs chg)

/-! ### Concrete inputs and trees used by the scenarios -/

def c1Input : List Char := "+\t/a/b.txt\n-\t/a/c.txt\n".data

def c1Tree : Hierarchy :=
  .mk [([], .mk [("a".data,
      .mk [("b.txt".data, .mk [] (some [⟨'+', none⟩])),
           ("c.txt".data, .mk [] (some [⟨'-', none⟩]))] none)] none)] none

def c7Tree : Hierarchy :=
  .mk [([], .mk [("old".data,
      .mk [("name".data, .mk [] (some [⟨'R', some "/new/name".data⟩]))] none)] none)] none

/-- A small tree used to instantiate the pruning theorems: one child `a`
carrying an addition and a modification record. -/
def pruneSampleTree : Hierarchy :=
  .mk [("a".data, .mk [] (some [⟨'+', none⟩, ⟨'M', none⟩]))] none

/-- `pruneSampleTree` pruned with `pruneSampleOpts`. -/
def pruneSamplePruned : Hierarchy :=
  .mk [("a".data, .mk [] (some [⟨'+', none⟩]))] none

/-- A config keeping additions and deletions but not modifications. -/
def pruneSampleOpts : ParseOptions := ⟨true, false, true, true, true⟩

/-- A fully permissive config. -/
def allOpts : ParseOptions := ⟨true, true, true, true, true⟩

/-! ### Infrastructure: induction over the nested tree type -/

theorem Hierarchy.ind (motive : Hierarchy → Prop)
    (step : ∀ cs chg, (∀ k v, (k, v) ∈ cs → motive v) → motive (.mk cs chg)) :
    ∀ t, motive t := by
  have key : ∀ (n : Nat) (t : Hierarchy), sizeOf t ≤ n → motive t := by
    intro n
    induction n with
    | zero =>
      intro t ht
      cases t with
      | mk cs chg =>
        simp only [Hierarchy.mk.sizeOf_spec] at ht
        omega
    | succ n ih =>
      intro t ht
      cases t with
      | mk cs chg =>
        apply step
        intro k v hm
        apply ih
        have h1 : sizeOf (k, v) < sizeOf cs := List.sizeOf_lt_of_mem hm
        simp only [Prod.mk.sizeOf_spec] at h1
        simp only [Hierarchy.mk.sizeOf_spec] at ht
        omega
  exact fun t => key (sizeOf t) t le_rfl

/-! ### Infrastructure: unfolding lemmas for the mutual definitions -/

theorem pruneTree_mk (cs : List (List Char × Hierarchy)) (chg : Option (List Change))
    (opts : ParseOptions) :
    pruneTree (.mk cs chg) opts =
      if ((filterChanges chg opts).getD []).isEmpty && (pruneChildren cs opts).isEmpty then none
      else some (.mk (pruneChildren cs opts) (filterChanges chg opts)) := by
  rw [pruneTree]

theorem pruneChildren_nil (opts : ParseOptions) : pruneChildren [] opts = [] := by
  rw [pruneChildren]

theorem pruneChildren_cons (k : List Char) (v : Hierarchy)
    (tail : List (List Char × Hierarchy)) (opts : ParseOptions) :
    pruneChildren ((k, v) :: tail) opts =
      match pruneTree v opts with
      | some r => (k, r) :: pruneChildren tail opts
      | none => pruneChildren tail opts := by
  rw [pruneChildren]

/-! ### Infrastructure: the filter predicate -/

theorem keepChange_eq_true_iff (iad : Bool) (opts : ParseOptions) (c : Change) :
    keepChange iad opts c = true ↔
      ((c.type = 'R' → opts.includeRenamed = true) ∧
       (c.type = 'M' → opts.includeModified = true) ∧
       (iad = true → opts.includeAddDel = true) ∧
       (iad = false →
         (c.type = '+' → opts.includeAdditions = true) ∧
         (c.type = '-' → opts.includeDeletions = true))) := by
  cases hR : (c.type == 'R') <;> cases hM : (c.type == 'M') <;>
    cases hP : (c.type == '+') <;> cases hD : (c.type == '-') <;>
    cases iad <;>
    simp_all [keepChange, beq_iff_eq]

/-! ### Infrastructure: splitting and insertion lemmas -/

theorem splitOnCharAux_ne_nil (c : Char) (s acc : List Char) : splitOnCharAux c s acc ≠ [] := by
  induction s generalizing acc with
  | nil => simp [splitOnCharAux]
  | cons x xs ih =>
    unfold splitOnCharAux
    by_cases hx : x = c <;> simp [hx, ih]

theorem splitOnChar_ne_nil (c : Char) (s : List Char) : splitOnChar c s ≠ [] :=
  splitOnCharAux_ne_nil c s []

theorem splitOnChar_cons_sep (c : Char) (p : List Char) :
    splitOnChar c (c :: p) = [] :: splitOnChar c p := by
  simp [splitOnChar, splitOnCharAux]

theorem splitOnCharAux_append_sep (c : Char) (s acc : List Char) :
    splitOnCharAux c (s ++ [c]) acc = splitOnCharAux c s acc ++ [[]] := by
  induction s generalizing acc with
  | nil => simp [splitOnCharAux]
  | cons x xs ih =>
    unfold splitOnCharAux
    by_cases hx : x = c <;> simp [hx, ih]

theorem splitOnChar_append_sep (c : Char) (s : List Char) :
    splitOnChar c (s ++ [c]) = splitOnChar c s ++ [[]] :=
  splitOnCharAux_append_sep c s []

theorem lookup_setChild (cs : List (List Char × Hierarchy)) (k : List Char) (v : Hierarchy) :
    List.lookup k (setChild cs k v) = some v := by
  induction cs with
  | nil => simp [setChild, List.lookup]
  | cons p tail ih =>
    obtain ⟨k', v'⟩ := p
    by_cases h : k' = k
    · simp [setChild, h, List.lookup]
    · have hne : (k == k') = false := by simp [Ne.symm h]
      simp [setChild, h, List.lookup, hne, ih]

theorem addSegments_nil_empty (ch : Change) (h : Hierarchy) :
    addSegments [[]] ch h = addSegments [] ch h := by
  cases h; rfl

/-- A final lone empty segment (a single trailing `/`) never creates a
child: it attaches the record where the preceding segments already point. -/
theorem addSegments_trailing_empty (segs : List (List Char)) (ch : Change)
    (hlast : segs.getLast? ≠ some []) :
    ∀ h : Hierarchy, addSegments (segs ++ [[]]) ch h = addSegments segs ch h := by
  induction segs with
  | nil => exact fun h => addSegments_nil_empty ch h
  | cons s rest ih =>
    intro h
    cases h with
    | mk cs chg =>
      cases rest with
      | nil =>
        have hs : s ≠ [] := by simpa using hlast
        simp only [List.nil_append, List.cons_append, addSegments]
        rw [if_neg (by simp), if_neg (by simp [hs])]
        simp only [List.append_eq, List.nil_append]
        rw [addSegments_nil_empty]
      | cons s2 r2 =>
        have hlast' : (s2 :: r2).getLast? ≠ some [] := by
          rwa [List.getLast?_cons_cons] at hlast
        have ih' := ih hlast'
        simp only [List.cons_append] at ih'
        simp only [List.cons_append, addSegments]
        rw [if_neg (by simp), if_neg (by simp)]
        simp only [List.append_eq, List.cons_append]
        rw [ih']

/-! ### Infrastructure: parse errors -/

theorem parseLine_error_iff (line : List Char) (e : FormatError) :
    parseLine line = .error e ↔
      (isBadRenameLine line = true ∧ e = .renameMissingDestination) := by
  unfold parseLine isBadRenameLine
  cases hml : matchLine line with
  | none => simp
  | some kr =>
    obtain ⟨k, rest⟩ := kr
    by_cases hk : k = 'R'
    · subst hk
      cases hmr : matchRename rest with
      | none => simp [hmr, Option.isNone, eq_comm]
      | some sd => simp [hmr, Option.isNone]
    · have hkb : (k == 'R') = false := by
        rw [beq_eq_false_iff_ne]; exact hk
      simp [hk, hkb]

theorem processLines_ok_of_no_bad (lines : List (List Char))
    (hall : ∀ l ∈ lines, isBadRenameLine l = false ∧ yieldsRelativePath l = false) :
    ∀ h : Hierarchy, ∃ t, processLines lines h = .ok t := by
  induction lines with
  | nil => exact fun h => ⟨h, rfl⟩
  | cons line rest ih =>
    intro h
    have hline := hall line (by simp)
    have hrest : ∀ l ∈ rest, isBadRenameLine l = false ∧ yieldsRelativePath l = false :=
      fun l hl => hall l (by simp [hl])
    cases hpl : parseLine line with
    | error e =>
      have := (parseLine_error_iff line e).1 hpl
      rw [this.1] at hline
      exact absurd hline.1 (by simp)
    | ok r =>
      cases r with
      | none => simpa [processLines, hpl] using ih hrest h
      | some p =>
        obtain ⟨ch, path⟩ := p
        have habs : path.head? = some '/' := by
          have := hline.2
          unfold yieldsRelativePath at this
          rw [hpl] at this
          simpa using this
        simpa [processLines, hpl, habs] using ih hrest (addSegments (splitOnChar '/' path) ch h)

/-! ### C1 -/

/-- C1 (counterexample): on the input `"+\t/a/b.txt\n-\t/a/c.txt\n"` the
built tree's root does not have one child keyed `a`: its only child is
keyed by the empty string (the leading empty segment of the split path
does create a node). -/
theorem c1_counterexample :
    (getTreeFromZfs c1Input).toOption.map childKeys = some [[]] ∧
    ([[]] : List (List Char)) ≠ ["a".data] := by
  refine ⟨by decide, by decide⟩

/-- C1 (amended): for every absolute input path, splitting on `/` yields a
leading empty segment for which the builder does create (or reuse) a root
child keyed `""`; all insertion happens inside that child, and the root's
own changes are untouched.  On the input `"+\t/a/b.txt\n-\t/a/c.txt\n"`
the root has exactly one child, keyed `""`, which has one child `a` with
the two leaf children `b.txt` (one addition) and `c.txt` (one deletion),
and `count(root) == 2`. -/
theorem c1_leading_empty_segment :
    (∀ (path : List Char) (ch : Change) (h : Hierarchy),
        path.head? = some '/' →
        addSegments (splitOnChar '/' path) ch h =
          .mk (setChild h.children []
                (addSegments ((splitOnChar '/' path).tail) ch
                  ((getExisting h.children []).getD (.mk [] none)))) h.changes ∧
        lookupChild (addSegments (splitOnChar '/' path) ch h) [] ≠ none) ∧
    getTreeFromZfs c1Input = .ok c1Tree ∧
    count c1Tree = 2 := by
  refine ⟨?_, by rfl, ?_⟩
  · intro path ch h hpath
    obtain ⟨p', rfl⟩ : ∃ p', path = '/' :: p' := by
      cases path with
      | nil => simp at hpath
      | cons x xs =>
        simp only [List.head?] at hpath
        exact ⟨xs, by rw [Option.some.injEq] at hpath; rw [hpath]⟩
    rw [splitOnChar_cons_sep]
    cases h with
    | mk cs chg =>
      have hne : splitOnChar '/' p' ≠ [] := splitOnChar_ne_nil '/' p'
      constructor
      · simp [addSegments, hne, Hierarchy.children, Hierarchy.changes]
      · simp [addSegments, hne, lookupChild, Hierarchy.children, lookup_setChild]
  · simp [c1Tree, count, countChildren, Hierarchy.changes]

/-- C1 (witness): the amended universal statement applied at the path
`"/a"`, one addition record and an empty root. -/
theorem c1_witness :
    addSegments (splitOnChar '/' "/a".data) ⟨'+', none⟩ (.mk [] none) =
      .mk (setChild (Hierarchy.mk [] none).children []
            (addSegments ((splitOnChar '/' "/a".data).tail) ⟨'+', none⟩
              ((getExisting (Hierarchy.mk [] none).children []).getD (.mk [] none))))
        (Hierarchy.mk [] none).changes ∧
    lookupChild (addSegments (splitOnChar '/' "/a".data) ⟨'+', none⟩ (.mk [] none)) [] ≠ none :=
  c1_leading_empty_segment.1 "/a".data ⟨'+', none⟩ (.mk [] none) (by decide)

/-! ### C9 -/

/-- C9: parsing and building fail only in the two documented cases: if no
line is a rename without `" -> "` and no line yields a record with a
non-absolute path, the build succeeds; a line that does not match the
`<kind><TAB><rest>` grammar is skipped and contributes nothing; and the
input `"not a valid line\n"` yields zero records and an empty root, with
no error. -/
theorem c9_error_policy :
    (∀ data : List Char,
        (∀ l ∈ splitOnChar '\n' data,
            isBadRenameLine l = false ∧ yieldsRelativePath l = false) →
        ∃ t, getTreeFromZfs data = .ok t) ∧
    (∀ (line : List Char) (rest : List (List Char)) (h : Hierarchy),
        matchLine line = none → processLines (line :: rest) h = processLines rest h) ∧
    zfsLines "not a valid line\n".data = .ok [] ∧
    getTreeFromZfs "not a valid line\n".data = .ok (.mk [] none) := by
  refine ⟨?_, ?_, by rfl, by rfl⟩
  · intro data hall
    exact processLines_ok_of_no_bad (splitOnChar '\n' data) hall (.mk [] none)
  · intro line rest h hml
    simp [processLines, parseLine, hml]

/-- C9 (witness): the success statement applied at the scenario input
`"not a valid line\n"`. -/
theorem c9_witness :
    ∃ t, getTreeFromZfs "not a valid line\n".data = .ok t :=
  c9_error_policy.1 "not a valid line\n".data (by decide)

/-! ### C10 -/

/-- C10 (counterexample): for the input path `/a//` (which ends with `/`)
the record is not attached to the node of the last non-empty segment `a`:
the node reached at `""`, `a` has zero change records and one child keyed
`""`, and that child carries the record. -/
theorem c10_counterexample :
    (((getTreeFromZfs "+\t/a//\n".data).toOption.bind
        (fun t => (lookupChild t []).bind (fun u => lookupChild u "a".data))).map
      (fun u => (childKeys u, (u.changes.getD []).length)) = some ([[]], 0)) ∧
    ((((getTreeFromZfs "+\t/a//\n".data).toOption.bind
        (fun t => (lookupChild t []).bind (fun u => lookupChild u "a".data))).bind
      (fun u => lookupChild u [])).map
        (fun w => (w.changes.getD []).length) = some 1) := by
  refine ⟨by decide, by decide⟩

/-- C10 (amended): for every input path that ends with a single `/` (its
part before the final `/` not itself ending with `/`, equivalently: no
trailing empty segment before the last), the trailing empty segment does
not create a child, and the built tree equals the one for the path
without the trailing `/`; in particular `"+\t/a/"` and `"+\t/a"` produce
structurally identical trees. -/
theorem c10_trailing_slash :
    (∀ (q : List Char) (ch : Change) (h : Hierarchy),
        (splitOnChar '/' q).getLast? ≠ some [] →
        addSegments (splitOnChar '/' (q ++ ['/'])) ch h = addSegments (splitOnChar '/' q) ch h) ∧
    getTreeFromZfs "+\t/a/\n".data = getTreeFromZfs "+\t/a\n".data := by
  refine ⟨?_, by rfl⟩
  intro q ch h hlast
  rw [splitOnChar_append_sep]
  exact addSegments_trailing_empty (splitOnChar '/' q) ch hlast h

/-- C10 (witness): the amended universal statement applied at the path
`"/a"`, whose extension by a trailing `/` is `"/a/"`. -/
theorem c10_witness :
    addSegments (splitOnChar '/' ("/a".data ++ ['/'])) ⟨'+', none⟩ (.mk [] none) =
      addSegments (splitOnChar '/' "/a".data) ⟨'+', none⟩ (.mk [] none) :=
  c10_trailing_slash.1 "/a".data ⟨'+', none⟩ (.mk [] none) (by decide)

/-! ### C2 -/

theorem isAddDel_eq_true_iff (chg : Option (List Change)) :
    isAddDel chg = true ↔
      ((∃ c ∈ chg.getD [], c.type = '+') ∧ (∃ c ∈ chg.getD [], c.type = '-')) := by
  simp only [isAddDel, Bool.and_eq_true, List.any_eq_true, beq_iff_eq]
  tauto

/-- C2: `isAddDel` is computed from the node's pre-filter changes (true
iff they contain an addition and a deletion); at such a node every
addition/deletion record is kept iff `includeAddDel`, the
additions/deletions toggles have no effect on the node's filtered
changes, and a node with one addition and one deletion pruned with
`includeAddDel = false`, `includeAdditions = true`,
`includeDeletions = true` retains neither record (the node is dropped
entirely). -/
theorem c2_addDel_precedence :
    (∀ chg : Option (List Change),
        isAddDel chg = true ↔
          ((∃ c ∈ chg.getD [], c.type = '+') ∧ (∃ c ∈ chg.getD [], c.type = '-'))) ∧
    (∀ (opts : ParseOptions) (chg : Option (List Change)) (c : Change),
        isAddDel chg = true → (c.type = '+' ∨ c.type = '-') →
        keepChange (isAddDel chg) opts c = opts.includeAddDel) ∧
    (∀ (opts opts' : ParseOptions) (chg : Option (List Change)),
        isAddDel chg = true →
        opts.includeRenamed = opts'.includeRenamed →
        opts.includeModified = opts'.includeModified →
        opts.includeAddDel = opts'.includeAddDel →
        filterChanges chg opts = filterChanges chg opts') ∧
    pruneTree (.mk [] (some [⟨'+', none⟩, ⟨'-', none⟩]))
        ⟨true, true, true, true, false⟩ = none ∧
    filterChanges (some [⟨'+', none⟩, ⟨'-', none⟩])
        ⟨true, true, true, true, false⟩ = some [] := by
  refine ⟨isAddDel_eq_true_iff, ?_, ?_, ?_, by decide⟩
  · intro opts chg c h1 h2
    rw [h1]
    rcases h2 with h | h <;> simp [keepChange, h]
  · intro opts opts' chg h1 hr hm ha
    have hp : keepChange true opts = keepChange true opts' := by
      funext c
      unfold keepChange
      rw [hr, hm, ha]
      simp
    simp only [filterChanges, h1, hp]
  · simp [pruneTree_mk, filterChanges, isAddDel, keepChange, pruneChildren_nil]

/-- C2 (witness): at a node whose changes are one addition and one
deletion, with `includeAddDel = false` and the other toggles true, the
addition record's keep-decision equals `includeAddDel`. -/
theorem c2_witness :
    keepChange (isAddDel (some [⟨'+', none⟩, ⟨'-', none⟩]))
        ⟨true, true, true, true, false⟩ ⟨'+', none⟩ =
      ParseOptions.includeAddDel ⟨true, true, true, true, false⟩ :=
  c2_addDel_precedence.2.1 ⟨true, true, true, true, false⟩
    (some [⟨'+', none⟩, ⟨'-', none⟩]) ⟨'+', none⟩ (by decide) (Or.inl rfl)

/-! ### C7 -/

theorem matchRename_ne_nil {rest src dst : List Char}
    (h : matchRename rest = some (src, dst)) : rest ≠ [] := by
  intro hrest
  subst hrest
  simp [matchRename, splitLastArrow] at h

/-- C7 (counterexample): for the input `"R\t/old/name -> /new/name\n"`
there is no node reachable at segments `old`, `name` from the root: the
root's only child is keyed `""`, and it has no child `old`. -/
theorem c7_counterexample :
    (getTreeFromZfs "R\t/old/name -> /new/name\n".data).toOption.map
        (fun t => (childKeys t, (lookupChild t "old".data).isSome)) = some ([[]], false) := by
  decide

/-- C7 (amended): for every rename line whose payload matches
`<source> -> <destination>`, the parser yields a record with `path` the
source and `movedTo` the destination; the input
`"R\t/old/name -> /new/name\n"` builds a tree whose leaf at segments
`""`, `old`, `name` carries exactly one rename record with
`movedTo == "/new/name"`. -/
theorem c7_rename_parse :
    (∀ (rest src dst : List Char), matchRename rest = some (src, dst) →
        parseLine ('R' :: '\t' :: rest) =
          .ok (some ({ type := 'R', movedTo := some dst }, src))) ∧
    getTreeFromZfs "R\t/old/name -> /new/name\n".data = .ok c7Tree := by
  refine ⟨?_, by rfl⟩
  intro rest src dst h
  have hne : rest ≠ [] := matchRename_ne_nil h
  have hml : matchLine ('R' :: '\t' :: rest) = if rest = [] then none else some ('R', rest) := rfl
  simp [parseLine, hml, hne, h]

/-- C7 (witness): the parser statement applied at the scenario's payload
`"/old/name -> /new/name"`. -/
theorem c7_witness :
    parseLine ('R' :: '\t' :: "/old/name -> /new/name".data) =
      .ok (some ({ type := 'R', movedTo := some "/new/name".data }, "/old/name".data)) :=
  c7_rename_parse.1 "/old/name -> /new/name".data "/old/name".data "/new/name".data (by decide)

/-! ### C8 -/

theorem arrowSuffix_eq_none_of_not_startsWithArrow (s : List Char)
    (h : startsWithArrow s = false) : arrowSuffix s = none := by
  unfold arrowSuffix
  split
  · simp_all [startsWithArrow]
  · rfl

theorem splitLastArrow_eq_none_of_not_hasArrow (s : List Char) (h : hasArrow s = false) :
    splitLastArrow s = none := by
  induction s with
  | nil => rfl
  | cons x xs ih =>
    unfold hasArrow at h
    rw [Bool.or_eq_false_iff] at h
    obtain ⟨h1, h2⟩ := h
    simp [splitLastArrow, ih h2, arrowSuffix_eq_none_of_not_startsWithArrow _ h1]

theorem matchRename_eq_none_of_not_hasArrow (s : List Char) (h : hasArrow s = false) :
    matchRename s = none := by
  unfold matchRename
  rw [splitLastArrow_eq_none_of_not_hasArrow s h]

theorem processLines_bad_rename (line : List Char) (post : List (List Char))
    (hline : ∃ rest : List Char, matchLine line = some ('R', rest) ∧ hasArrow rest = false) :
    ∀ pre : List (List Char), (∀ l ∈ pre, yieldsRelativePath l = false) →
      ∀ h : Hierarchy,
        processLines (pre ++ line :: post) h = .error .renameMissingDestination := by
  intro pre
  induction pre with
  | nil =>
    intro _ h
    obtain ⟨rest, hml, hha⟩ := hline
    have hmr : matchRename rest = none := matchRename_eq_none_of_not_hasArrow rest hha
    simp [processLines, parseLine, hml, hmr]
  | cons l pre' ih =>
    intro hpre h
    have hl := hpre l (by simp)
    have hpre' : ∀ l' ∈ pre', yieldsRelativePath l' = false :=
      fun l' hl' => hpre l' (by simp [hl'])
    cases hpl : parseLine l with
    | error e =>
      have he := (parseLine_error_iff l e).1 hpl
      simp [processLines, hpl, he.2]
    | ok r =>
      cases r with
      | none =>
        simpa [processLines, hpl] using ih hpre' h
      | some p =>
        obtain ⟨ch, path⟩ := p
        have habs : path.head? = some '/' := by
          unfold yieldsRelativePath at hl
          rw [hpl] at hl
          simpa using hl
        simpa [processLines, hpl, habs] using
          ih hpre' (addSegments (splitOnChar '/' path) ch h)

/-- C8 (counterexample): the input `"+\trel\nR\t/x/y\n"` contains a
rename line whose payload lacks `" -> "`, yet the build fails with the
non-absolute-path error of the earlier line, not the
missing-rename-destination error. -/
theorem c8_counterexample :
    getTreeFromZfs "+\trel\nR\t/x/y\n".data = .error (.pathNotAbsolute "rel".data) ∧
    FormatError.pathNotAbsolute "rel".data ≠ .renameMissingDestination := by
  refine ⟨by rfl, by decide⟩

/-- C8 (amended): for every input containing a rename-kind line whose
payload does not contain `" -> "`, provided no earlier line yields a
record with a non-absolute path, the build fails with the
missing-rename-destination FormatError and produces no tree. -/
theorem c8_bad_rename_aborts :
    ∀ (data : List Char) (pre : List (List Char)) (line : List Char) (post : List (List Char)),
      splitOnChar '\n' data = pre ++ line :: post →
      (∀ l ∈ pre, yieldsRelativePath l = false) →
      (∃ rest : List Char, matchLine line = some ('R', rest) ∧ hasArrow rest = false) →
      getTreeFromZfs data = .error .renameMissingDestination := by
  intro data pre line post hsplit hpre hline
  unfold getTreeFromZfs
  rw [hsplit]
  exact processLines_bad_rename line post hline pre hpre (.mk [] none)

/-- C8 (witness): the amended statement applied at the scenario input
`"R\t/x/y\n"`, whose single non-blank line is a rename without `" -> "`. -/
theorem c8_witness :
    getTreeFromZfs "R\t/x/y\n".data = .error .renameMissingDestination :=
  c8_bad_rename_aborts "R\t/x/y\n".data [] "R\t/x/y".data [[]] (by decide)
    (by simp) ⟨"/x/y".data, by decide, by decide⟩

/-! ### C3 -/

theorem keepChange_pm (opts : ParseOptions) (c : Change) (h : c.type = '+' ∨ c.type = '-') :
    keepChange true opts c = opts.includeAddDel := by
  rcases h with h | h <;> simp [keepChange, h]

theorem keepChange_true_of_addDel_false (opts : ParseOptions) (c : Change)
    (h : opts.includeAddDel = false) : keepChange true opts c = false := by
  unfold keepChange
  split
  · rfl
  split
  · rfl
  simp [h]

theorem filter_filter_self (p : Change → Bool) (l : List Change) :
    (l.filter p).filter p = l.filter p := by
  rw [List.filter_eq_self]
  intro a ha
  exact List.of_mem_filter ha

theorem isAddDel_filter_false (p : Change → Bool) (l : List Change)
    (h : isAddDel (some l) = false) : isAddDel (some (l.filter p)) = false := by
  by_contra hne
  rw [Bool.not_eq_false, isAddDel_eq_true_iff] at hne
  simp only [Option.getD_some] at hne
  obtain ⟨⟨cp, hcp, hcpt⟩, ⟨cd, hcd, hcdt⟩⟩ := hne
  have : isAddDel (some l) = true := by
    rw [isAddDel_eq_true_iff]
    simp only [Option.getD_some]
    exact ⟨⟨cp, (List.mem_filter.1 hcp).1, hcpt⟩, ⟨cd, (List.mem_filter.1 hcd).1, hcdt⟩⟩
  simp_all

theorem isAddDel_filter_keep (opts : ParseOptions) (l : List Change)
    (h : isAddDel (some l) = true) (had : opts.includeAddDel = true) :
    isAddDel (some (l.filter (keepChange true opts))) = true := by
  rw [isAddDel_eq_true_iff] at h ⊢
  simp only [Option.getD_some] at h ⊢
  obtain ⟨⟨cp, hcp, hcpt⟩, ⟨cd, hcd, hcdt⟩⟩ := h
  refine ⟨⟨cp, ?_, hcpt⟩, ⟨cd, ?_, hcdt⟩⟩
  · exact List.mem_filter.2 ⟨hcp, by rw [keepChange_pm opts cp (Or.inl hcpt)]; exact had⟩
  · exact List.mem_filter.2 ⟨hcd, by rw [keepChange_pm opts cd (Or.inr hcdt)]; exact had⟩

theorem filterChanges_idem (chg : Option (List Change)) (opts : ParseOptions) :
    filterChanges (filterChanges chg opts) opts = filterChanges chg opts := by
  cases chg with
  | none => rfl
  | some l =>
    simp only [filterChanges, Option.map_some']
    cases had : isAddDel (some l) with
    | false =>
      rw [isAddDel_filter_false (keepChange false opts) l had]
      rw [filter_filter_self]
    | true =>
      cases hdel : opts.includeAddDel with
      | false =>
        have hnil : l.filter (keepChange true opts) = [] := by
          rw [List.filter_eq_nil_iff]
          intro c _
          simp [keepChange_true_of_addDel_false opts c hdel]
        rw [hnil]
        simp [isAddDel]
      | true =>
        rw [isAddDel_filter_keep opts l had hdel]
        rw [filter_filter_self]

theorem pruneChildren_idem (cs : List (List Char × Hierarchy)) (opts : ParseOptions)
    (ih : ∀ k v, (k, v) ∈ cs → ∀ t', pruneTree v opts = some t' → pruneTree t' opts = some t') :
    pruneChildren (pruneChildren cs opts) opts = pruneChildren cs opts := by
  induction cs with
  | nil => simp [pruneChildren_nil]
  | cons p tail ihl =>
    obtain ⟨k, v⟩ := p
    have ihtail := ihl (fun k' v' hm => ih k' v' (by simp [hm]))
    rw [pruneChildren_cons]
    cases hv : pruneTree v opts with
    | none =>
      simp only [hv]
      exact ihtail
    | some r =>
      simp only [hv]
      rw [pruneChildren_cons]
      have hr : pruneTree r opts = some r := ih k v (by simp) r hv
      simp only [hr]
      rw [ihtail]

/-- C3: pruning is idempotent — whenever `pruneTree t opts` yields a tree
`t'` (not the empty-result marker), pruning `t'` again with the same
options yields `t'` unchanged. -/
theorem c3_prune_idempotent :
    ∀ (t : Hierarchy) (opts : ParseOptions) (t' : Hierarchy),
      pruneTree t opts = some t' → pruneTree t' opts = some t' := by
  intro t
  induction t using Hierarchy.ind with
  | step cs chg ih =>
    intro opts t' h
    rw [pruneTree_mk] at h
    by_cases hcond :
        (((filterChanges chg opts).getD []).isEmpty && (pruneChildren cs opts).isEmpty) = true
    · rw [if_pos hcond] at h
      cases h
    · rw [if_neg hcond] at h
      obtain rfl : Hierarchy.mk (pruneChildren cs opts) (filterChanges chg opts) = t' :=
        Option.some.inj h
      rw [pruneTree_mk]
      rw [filterChanges_idem chg opts]
      rw [pruneChildren_idem cs opts (fun k v hm => ih k v hm opts)]
      rw [if_neg hcond]

/-- C3 (witness): the idempotence statement applied to a concrete tree
whose pruning drops a modification record. -/
theorem c3_witness :
    pruneTree pruneSamplePruned pruneSampleOpts = some pruneSamplePruned :=
  c3_prune_idempotent pruneSampleTree pruneSampleOpts pruneSamplePruned
    (by simp [pruneSampleTree, pruneSamplePruned, pruneSampleOpts, pruneTree_mk,
      pruneChildren_cons, pruneChildren_nil, filterChanges, isAddDel, keepChange])

/-! ### C4 -/

theorem keepChange_mono (iad : Bool) {a b : ParseOptions} (hab : optsLE a b) (c : Change)
    (h : keepChange iad a c = true) : keepChange iad b c = true := by
  obtain ⟨h1, h2, h3, h4, h5⟩ := hab
  rw [keepChange_eq_true_iff] at h ⊢
  obtain ⟨g1, g2, g3, g4⟩ := h
  exact ⟨fun hc => h1 (g1 hc), fun hc => h2 (g2 hc), fun hi => h5 (g3 hi),
    fun hif => ⟨fun hc => h3 ((g4 hif).1 hc), fun hc => h4 ((g4 hif).2 hc)⟩⟩

theorem filterChanges_sublist {a b : ParseOptions} (hab : optsLE a b)
    (chg : Option (List Change)) :
    List.Sublist ((filterChanges chg a).getD []) ((filterChanges chg b).getD []) := by
  cases chg with
  | none => simp [filterChanges]
  | some l =>
    simp only [filterChanges, Option.map_some', Option.getD_some]
    exact List.monotone_filter_right l
      (fun c hc => keepChange_mono (isAddDel (some l)) hab c hc)

theorem mem_pruneChildren_of_mem {cs : List (List Char × Hierarchy)} {opts : ParseOptions}
    {k : List Char} {v r : Hierarchy} (hm : (k, v) ∈ cs) (hp : pruneTree v opts = some r) :
    (k, r) ∈ pruneChildren cs opts := by
  induction cs with
  | nil => simp at hm
  | cons p tail ih =>
    obtain ⟨k', v'⟩ := p
    rw [pruneChildren_cons]
    rcases List.mem_cons.1 hm with heq | htail
    · rw [Prod.mk.injEq] at heq
      obtain ⟨rfl, rfl⟩ := heq
      simp only [hp]
      simp
    · cases hv' : pruneTree v' opts with
      | none =>
        simp only [hv']
        exact ih htail
      | some r' =>
        simp only [hv']
        exact List.mem_cons_of_mem _ (ih htail)

theorem mem_pruneChildren_inv {cs : List (List Char × Hierarchy)} {opts : ParseOptions}
    {k : List Char} {r : Hierarchy} (hm : (k, r) ∈ pruneChildren cs opts) :
    ∃ v, (k, v) ∈ cs ∧ pruneTree v opts = some r := by
  induction cs with
  | nil =>
    rw [pruneChildren_nil] at hm
    simp at hm
  | cons p tail ih =>
    obtain ⟨k', v'⟩ := p
    rw [pruneChildren_cons] at hm
    cases hv' : pruneTree v' opts with
    | none =>
      simp only [hv'] at hm
      obtain ⟨v, hv, hp⟩ := ih hm
      exact ⟨v, by simp [hv], hp⟩
    | some r' =>
      simp only [hv'] at hm
      rcases List.mem_cons.1 hm with heq | htail
      · rw [Prod.mk.injEq] at heq
        obtain ⟨rfl, rfl⟩ := heq
        exact ⟨v', by simp, hv'⟩
      · obtain ⟨v, hv, hp⟩ := ih htail
        exact ⟨v, by simp [hv], hp⟩

/-- C4: pruning is monotone in the filter configuration — if every flag
set in `a` is also set in `b`, then every node and every record surviving
`pruneTree t a` also survives, at the same position, in `pruneTree t b`. -/
theorem c4_prune_monotone :
    ∀ (t : Hierarchy) (a b : ParseOptions), optsLE a b →
      ∀ ta, pruneTree t a = some ta →
        ∃ tb, pruneTree t b = some tb ∧ SubTree ta tb := by
  intro t
  induction t using Hierarchy.ind with
  | step cs chg ih =>
    intro a b hab ta hta
    rw [pruneTree_mk] at hta
    by_cases hcond :
        (((filterChanges chg a).getD []).isEmpty && (pruneChildren cs a).isEmpty) = true
    · rw [if_pos hcond] at hta
      cases hta
    · rw [if_neg hcond] at hta
      obtain rfl : Hierarchy.mk (pruneChildren cs a) (filterChanges chg a) = ta :=
        Option.some.inj hta
      have hchild : ∀ k v1, (k, v1) ∈ pruneChildren cs a →
          ∃ v2, (k, v2) ∈ pruneChildren cs b ∧ SubTree v1 v2 := by
        intro k v1 hm
        obtain ⟨v, hvcs, hpv⟩ := mem_pruneChildren_inv hm
        obtain ⟨v2, hpv2, hsub⟩ := ih k v hvcs a b hab v1 hpv
        exact ⟨v2, mem_pruneChildren_of_mem hvcs hpv2, hsub⟩
      have hsubch : List.Sublist ((filterChanges chg a).getD []) ((filterChanges chg b).getD []) :=
        filterChanges_sublist hab chg
      have hcondb :
          ¬((((filterChanges chg b).getD []).isEmpty && (pruneChildren cs b).isEmpty) = true) := by
        intro hb
        rw [Bool.and_eq_true] at hb
        apply hcond
        rw [Bool.and_eq_true]
        constructor
        · have hbnil : (filterChanges chg b).getD [] = [] := by
            simpa [List.isEmpty_iff] using hb.1
          have hanil : (filterChanges chg a).getD [] = [] := by
            rw [hbnil] at hsubch
            exact List.eq_nil_of_sublist_nil hsubch
          simpa [List.isEmpty_iff] using hanil
        · cases hca : pruneChildren cs a with
          | nil => simp
          | cons p tailp =>
            obtain ⟨k, v1⟩ := p
            obtain ⟨v2, hv2, _⟩ := hchild k v1 (by rw [hca]; simp)
            have hbnil : pruneChildren cs b = [] := by
              simpa [List.isEmpty_iff] using hb.2
            rw [hbnil] at hv2
            simp at hv2
      refine ⟨.mk (pruneChildren cs b) (filterChanges chg b), ?_, ?_⟩
      · rw [pruneTree_mk, if_neg hcondb]
      · rw [SubTree]
        exact ⟨hsubch, hchild⟩

/-- C4 (witness): the monotonicity statement applied to a concrete tree, a
config without `includeModified` and the fully permissive config. -/
theorem c4_witness :
    ∃ tb, pruneTree pruneSampleTree allOpts = some tb ∧ SubTree pruneSamplePruned tb :=
  c4_prune_monotone pruneSampleTree pruneSampleOpts allOpts
    (by unfold optsLE pruneSampleOpts allOpts; decide) pruneSamplePruned
    (by simp [pruneSampleTree, pruneSamplePruned, pruneSampleOpts, pruneTree_mk,
      pruneChildren_cons, pruneChildren_nil, filterChanges, isAddDel, keepChange])

/-! ### C5 -/

theorem totalChanges_mk (cs : List (List Char × Hierarchy)) (chg : Option (List Change)) :
    totalChanges (.mk cs chg) = (chg.getD []).length + totalChangesList cs := by
  rw [totalChanges]

theorem totalChangesList_nil : totalChangesList [] = 0 := by
  rw [totalChangesList]

theorem totalChangesList_cons (k : List Char) (v : Hierarchy)
    (tail : List (List Char × Hierarchy)) :
    totalChangesList ((k, v) :: tail) = totalChanges v + totalChangesList tail := by
  rw [totalChangesList]

theorem totalChanges_le_of_mem {cs : List (List Char × Hierarchy)} {k : List Char}
    {v : Hierarchy} (hm : (k, v) ∈ cs) : totalChanges v ≤ totalChangesList cs := by
  induction cs with
  | nil => simp at hm
  | cons p tail ih =>
    obtain ⟨k', v'⟩ := p
    rw [totalChangesList_cons]
    rcases List.mem_cons.1 hm with heq | htail
    · rw [Prod.mk.injEq] at heq
      obtain ⟨rfl, rfl⟩ := heq
      omega
    · have := ih htail
      omega

/-- C5: a rebuilt node yields the empty-result marker iff its filtered
changes are empty or absent and its rebuilt children mapping is empty;
consequently every node of a non-marker pruned result, at every depth,
carries at least one surviving record or has at least one child, and the
whole result carries at least one surviving record (so a subtree with
zero surviving records prunes to the marker and is absent from its
parent's rebuilt children). -/
theorem c5_empty_elimination :
    ∀ (t : Hierarchy) (opts : ParseOptions),
      (pruneTree t opts = none ↔
        ((filterChanges t.changes opts).getD [] = [] ∧
          pruneChildren t.children opts = [])) ∧
      (∀ t', pruneTree t opts = some t' → AllNonEmpty t' ∧ 0 < totalChanges t') := by
  intro t
  induction t using Hierarchy.ind with
  | step cs chg ih =>
    intro opts
    have hch : (Hierarchy.mk cs chg).children = cs := rfl
    have hcg : (Hierarchy.mk cs chg).changes = chg := rfl
    by_cases hcond :
        (((filterChanges chg opts).getD []).isEmpty && (pruneChildren cs opts).isEmpty) = true
    · rw [Bool.and_eq_true, List.isEmpty_iff, List.isEmpty_iff] at hcond
      constructor
      · rw [pruneTree_mk, hch, hcg]
        rw [if_pos (by rw [Bool.and_eq_true, List.isEmpty_iff, List.isEmpty_iff]; exact hcond)]
        exact iff_of_true rfl hcond
      · intro t' h
        rw [pruneTree_mk,
          if_pos (by rw [Bool.and_eq_true, List.isEmpty_iff, List.isEmpty_iff]; exact hcond)] at h
        cases h
    · constructor
      · rw [pruneTree_mk, hch, hcg, if_neg hcond]
        rw [Bool.and_eq_true, List.isEmpty_iff, List.isEmpty_iff] at hcond
        constructor
        · intro hsome
          cases hsome
        · intro hcon
          exact absurd hcon hcond
      · intro t' h
        rw [pruneTree_mk, if_neg hcond] at h
        obtain rfl : Hierarchy.mk (pruneChildren cs opts) (filterChanges chg opts) = t' :=
          Option.some.inj h
        rw [Bool.and_eq_true] at hcond
        rw [not_and_or] at hcond
        have hsplit : (filterChanges chg opts).getD [] ≠ [] ∨ pruneChildren cs opts ≠ [] := by
          rcases hcond with hc | hc
          · left
            intro hnil
            exact hc (by rw [List.isEmpty_iff]; exact hnil)
          · right
            intro hnil
            exact hc (by rw [List.isEmpty_iff]; exact hnil)
        constructor
        · refine AllNonEmpty.mk hsplit ?_
          intro k v hm
          obtain ⟨v0, hv0, hp⟩ := mem_pruneChildren_inv hm
          exact ((ih k v0 hv0 opts).2 v hp).1
        · rw [totalChanges_mk]
          rcases hsplit with hF | hC
          · have : 0 < ((filterChanges chg opts).getD []).length :=
              List.length_pos.2 hF
            omega
          · cases hca : pruneChildren cs opts with
            | nil => exact absurd hca hC
            | cons p tailp =>
              obtain ⟨k, v⟩ := p
              have hmem : (k, v) ∈ pruneChildren cs opts := by
                rw [hca]
                exact List.mem_cons_self (k, v) tailp
              obtain ⟨v0, hv0, hp⟩ := mem_pruneChildren_inv hmem
              have hv : 0 < totalChanges v := ((ih k v0 hv0 opts).2 v hp).2
              rw [totalChangesList_cons]
              omega

/-- C5 (witness): the invariant statement applied to a concrete pruned
tree. -/
theorem c5_witness :
    AllNonEmpty pruneSamplePruned ∧ 0 < totalChanges pruneSamplePruned :=
  (c5_empty_elimination pruneSampleTree pruneSampleOpts).2 pruneSamplePruned
    (by simp [pruneSampleTree, pruneSamplePruned, pruneSampleOpts, pruneTree_mk,
      pruneChildren_cons, pruneChildren_nil, filterChanges, isAddDel, keepChange])

/-! ### C6 -/

theorem totalChangesList_setChild (cs : List (List Char × Hierarchy)) (k : List Char)
    (v : Hierarchy)
    (hv : totalChanges v = totalChanges ((getExisting cs k).getD (.mk [] none)) + 1) :
    totalChangesList (setChild cs k v) = totalChangesList cs + 1 := by
  induction cs with
  | nil =>
    simp only [setChild, totalChangesList_cons, totalChangesList_nil]
    rw [hv]
    simp [getExisting, List.lookup, totalChanges_mk, totalChangesList_nil]
  | cons p tail ih =>
    obtain ⟨k', v'⟩ := p
    by_cases hk : k' = k
    · subst hk
      simp only [setChild, eq_self_iff_true, if_true]
      rw [totalChangesList_cons, totalChangesList_cons]
      have hge : getExisting ((k', v') :: tail) k' = some v' := by
        simp [getExisting, List.lookup]
      rw [hge, Option.getD_some] at hv
      omega
    · simp only [setChild, if_neg hk]
      rw [totalChangesList_cons, totalChangesList_cons]
      have hbe : (k == k') = false := by
        rw [beq_eq_false_iff_ne]
        exact Ne.symm hk
      have hge : getExisting ((k', v') :: tail) k = getExisting tail k := by
        simp [getExisting, List.lookup, hbe]
      rw [hge] at hv
      rw [ih hv]
      omega

theorem totalChanges_addSegments (segs : List (List Char)) (ch : Change) :
    ∀ h : Hierarchy, totalChanges (addSegments segs ch h) = totalChanges h + 1 := by
  induction segs with
  | nil =>
    intro h
    cases h with
    | mk cs chg =>
      simp only [addSegments, totalChanges_mk, List.length_append, List.length_cons,
        List.length_nil, Option.getD_some]
      omega
  | cons s rest ih =>
    intro h
    cases h with
    | mk cs chg =>
      by_cases hsp : rest = [] ∧ s = []
      · simp only [addSegments, if_pos hsp, totalChanges_mk, List.length_append,
          List.length_cons, List.length_nil, Option.getD_some]
        omega
      · simp only [addSegments, if_neg hsp, totalChanges_mk]
        rw [totalChangesList_setChild cs s _ (ih _)]
        omega

theorem matchLine_nonempty {line : List Char} {kr : Char × List Char}
    (h : matchLine line = some kr) : line.isEmpty = false := by
  cases line with
  | nil => exact absurd h (by simp [matchLine])
  | cons x xs => rfl

theorem processLines_count (lines : List (List Char)) :
    (∀ l ∈ lines, goodLine l = true) →
    ∀ h : Hierarchy, ∃ t, processLines lines h = .ok t ∧
      totalChanges t =
        totalChanges h + (lines.filter (fun l => (matchLine l).isSome)).length := by
  induction lines with
  | nil =>
    intro _ h
    exact ⟨h, rfl, by simp⟩
  | cons line rest ih =>
    intro hall h
    have hline := hall line (by simp)
    have hrest : ∀ l ∈ rest, goodLine l = true := fun l hl => hall l (by simp [hl])
    cases hml : matchLine line with
    | none =>
      have hpl : parseLine line = .ok none := by simp [parseLine, hml]
      obtain ⟨t, ht, hcount⟩ := ih hrest h
      refine ⟨t, by simp [processLines, hpl, ht], ?_⟩
      rw [hcount]
      simp [List.filter_cons, hml]
    | some kr =>
      obtain ⟨k, payload⟩ := kr
      have hnonempty : line.isEmpty = false := matchLine_nonempty hml
      unfold goodLine at hline
      rw [hml, hnonempty] at hline
      simp only [Bool.false_or] at hline
      by_cases hk : k = 'R'
      · subst hk
        rw [if_pos rfl] at hline
        cases hmr : matchRename payload with
        | none =>
          rw [hmr] at hline
          cases hline
        | some sd =>
          obtain ⟨src, dst⟩ := sd
          rw [hmr] at hline
          have habs : src.head? = some '/' := by simpa using hline
          have hpl : parseLine line = .ok (some ({ type := 'R', movedTo := some dst }, src)) := by
            simp [parseLine, hml, hmr]
          obtain ⟨t, ht, hcount⟩ := ih hrest (addSegments (splitOnChar '/' src)
            { type := 'R', movedTo := some dst } h)
          refine ⟨t, by simp [processLines, hpl, habs, ht], ?_⟩
          rw [hcount, totalChanges_addSegments]
          simp only [List.filter_cons, hml, Option.isSome_some, if_pos, List.length_cons]
          omega
      · rw [if_neg hk] at hline
        have habs : payload.head? = some '/' := by simpa using hline
        have hpl : parseLine line = .ok (some ({ type := k, movedTo := none }, payload)) := by
          simp [parseLine, hml, hk]
        obtain ⟨t, ht, hcount⟩ := ih hrest (addSegments (splitOnChar '/' payload)
          { type := k, movedTo := none } h)
        refine ⟨t, by simp [processLines, hpl, habs, ht], ?_⟩
        rw [hcount, totalChanges_addSegments]
        simp only [List.filter_cons, hml, Option.isSome_some, if_pos, List.length_cons]
        omega

/-- C6: for every input whose non-blank lines all match the grammar, have
splittable rename payloads and absolute paths, the build succeeds and the
total number of change records stored across all nodes equals the number
of non-blank, grammar-matching lines of the input. -/
theorem c6_record_count :
    ∀ data : List Char,
      (∀ l ∈ splitOnChar '\n' data, goodLine l = true) →
      ∃ t, getTreeFromZfs data = .ok t ∧
        totalChanges t =
          ((splitOnChar '\n' data).filter (fun l => (matchLine l).isSome)).length := by
  intro data hall
  obtain ⟨t, ht, hcount⟩ := processLines_count (splitOnChar '\n' data) hall (.mk [] none)
  refine ⟨t, ht, ?_⟩
  rw [hcount, totalChanges_mk, totalChangesList_nil]
  simp

/-- C6 (witness): the counting statement applied at the concrete input
`"+\t/a/b.txt\n-\t/a/c.txt\n"`. -/
theorem c6_witness :
    ∃ t, getTreeFromZfs c1Input = .ok t ∧
      totalChanges t =
        ((splitOnChar '\n' c1Input).filter (fun l => (matchLine l).isSome)).length :=
  c6_record_count c1Input (by decide)

end ZfsDiff
